import Mathlib

/-!
Verification development for the msAnalyzer natural-abundance correction
engine and ion-cluster pipeline (`msAnalyzer/msAnalyzer.py`), shallowly
embedded over lists of rationals.  Floating-point numbers of the source are
modelled as exact rationals, numpy arrays and pandas frames as lists (a
frame is a list of rows), and a Python crash (uncaught exception) as the
`none` value of an `Option` result.
-/

namespace MsAnalyzer

/-- The chemical elements modelled by the natural-abundance table
(`NAProcess.__getNaturalAbundanceDistributions`), listed in the dictionary
insertion order H, C, N, O, Si, S. -/
inductive Element where
  | H
  | C
  | N
  | O
  | Si
  | S
deriving DecidableEq, Repr

/-- The six elements in dictionary insertion order, as iterated by
`elementDict.items()` in `__calculateMassDistributionVector`. -/
def elementList : List Element := [.H, .C, .N, .O, .Si, .S]

/-- The natural-abundance isotope distributions of
`NAProcess.__getNaturalAbundanceDistributions`, with the literal decimal
values of the source as exact rationals. -/
def NaturalAbundanceDistributions : Element → List ℚ
  | .H => [0.999885, 0.000115]
  | .C => [0.9893, 0.0107]
  | .N => [0.99632, 0.00368]
  | .O => [0.99757, 0.00038, 0.00205]
  | .Si => [0.922297, 0.046832, 0.030872]
  | .S => [0.9493, 0.0076, 0.0429, 0.0002]

/-- Value of a digit character, as used when converting a matched digit run
of a regular expression to a Python `int`. -/
def digitVal (c : Char) : ℕ := c.toNat - 48

/-- Convert a run of digit characters to the natural number it denotes. -/
def digitsToNat (ds : List Char) : ℕ := ds.foldl (fun a c => 10 * a + digitVal c) 0

/-- Try to match the regular expression `C([0-9]+):([0-9]+)` at the start of
the character list, returning the two captured numbers. -/
def matchChain (cs : List Char) : Option (ℕ × ℕ) :=
  match cs with
  | 'C' :: rest =>
      let ds1 := rest.takeWhile Char.isDigit
      if ds1.isEmpty then none
      else
        match rest.dropWhile Char.isDigit with
        | ':' :: r2 =>
            let ds2 := r2.takeWhile Char.isDigit
            if ds2.isEmpty then none
            else some (digitsToNat ds1, digitsToNat ds2)
        | _ => none
  | _ => none

/-- First match of the regular expression `C([0-9]+):([0-9]+)` anywhere in
the string, i.e. `re.findall(regex, entry)[0]` in
`NAProcess.getFAFormulaString`; `none` models the `IndexError` raised when
no match exists. -/
def findChain : List Char → Option (ℕ × ℕ)
  | [] => none
  | c :: rest =>
      match matchChain (c :: rest) with
      | some r => some r
      | none => findChain rest

/-- The formula built by `NAProcess.getFAFormulaString`, as the token list
of the generated formula string: the string is the concatenation of
`letter ++ str(n)` for the pairs `[("C", carbon), ("H", hydrogen),
("Si", silicon), ("O", oxygen)]` with `n > 0`, which tokenizes uniquely back
into these (element, count) pairs.  Counts are integers, as in the Python
source where `hydrogen` can be computed negative. -/
def faTokens (carbon doubleBond : ℕ) (fames chol : Bool) : List (Element × ℤ) :=
  let c0 : ℤ := carbon
  let d0 : ℤ := doubleBond
  let h0 : ℤ := 3 + (c0 - 2) * 2 + 1 - 2 * d0
  let c1 : ℤ := if fames then c0 + 1 else c0
  let h1 : ℤ := if fames then h0 - 1 + 3 else h0
  let c2 : ℤ := if chol then 30 else c1
  let h2 : ℤ := if chol then 54 else h1
  let o2 : ℤ := if chol then 1 else 2
  let si2 : ℤ := if chol then 1 else 0
  [(Element.C, c2), (Element.H, h2), (Element.Si, si2), (Element.O, o2)].filter
    (fun t => decide (0 < t.2))

/-- `NAProcess.getFAFormulaString`: extract the first `Cn:d` chain notation
of the entry and build the formula; `none` models the `IndexError` crash on
an entry with no parseable chain notation. -/
def getFAFormulaTokens (entry : String) (fames chol : Bool) : Option (List (Element × ℤ)) :=
  (findChain entry.toList).map fun cd => faTokens cd.1 cd.2 fames chol

/-- `NAProcess.parseFormula`: scan the formula and accumulate the count of
each known element into a dictionary initialized with every element at 0.
Every token of a generated formula string carries an explicit positive
count, so the `absent count ⇒ 1` branch of the regular expression never
fires for them. -/
def parseFormula (tokens : List (Element × ℤ)) : Element → ℕ :=
  tokens.foldl (fun d t => fun e => if e = t.1 then d e + t.2.toNat else d e)
    (fun _ => 0)

/-- The composition the specification ascribes to chain notation `Cn:d`
(spec §4.1): hydrogen `3+(n−2)×2+1−2d`, oxygen 2, and carbon +1 /
hydrogen +2 under methyl-ester derivatization.  Stated from the spec's
words, to be compared with the source-derived pipeline. -/
def specFAComposition (carbon doubleBond : ℕ) (fames : Bool) : Element → ℕ := fun e =>
  match e with
  | .C => carbon + (if fames then 1 else 0)
  | .H => (3 + ((carbon : ℤ) - 2) * 2 + 1 - 2 * (doubleBond : ℤ) +
      (if fames then 2 else 0)).toNat
  | .O => 2
  | _ => 0

/-- Entry `k` of the full discrete convolution of two coefficient lists:
the sum of `a[i] * b[k-i]` over `i ≤ k`, reading entries beyond a list's
length as 0. -/
def convEntry (a b : List ℚ) (k : ℕ) : ℚ :=
  ((List.range (k + 1)).map fun i => a.getD i 0 * b.getD (k - i) 0).sum

/-- `np.convolve(a, b)` in the default full mode: the list of convolution
entries, of length `a.length + b.length - 1`. -/
def conv (a b : List ℚ) : List ℚ :=
  (List.range (a.length + b.length - 1)).map (convEntry a b)

/-- `NAProcess.__calculateMassDistributionVector`: starting from `[1.]`,
convolve in the natural isotope distribution of every element other than
the isotopic tracer, `count` times each, iterating the element dictionary
in insertion order. -/
def calculateMassDistributionVector (elementDict : Element → ℕ) (atomTracer : Element) :
    List ℚ :=
  elementList.foldl
    (fun result atom =>
      if atom = atomTracer then result
      else (fun v => conv v (NaturalAbundanceDistributions atom))^[elementDict atom] result)
    [1]

/-- Column `i` of the correction matrix of `NAProcess.computeCorrectionMatrix`:
the correction vector, zero-padded to `m` rows when shorter
(`correctionVector.resize(m)`) and truncated to `m` rows, convolved `i`
times with the tracer purity vector and `nAtomTracer - i` times with the
tracer's natural distribution, truncating to `m` rows after each
convolution. -/
def correctionMatrixColumn (elementDict : Element → ℕ) (atomTracer : Element)
    (purityTracer : List ℚ) (i : ℕ) : List ℚ :=
  let correctionVector := calculateMassDistributionVector elementDict atomTracer
  let nAtomTracer := elementDict atomTracer
  let tracerNADistribution := NaturalAbundanceDistributions atomTracer
  let m := 1 + nAtomTracer * (tracerNADistribution.length - 1)
  let c := correctionVector.length
  let padded :=
    if c < m then correctionVector ++ List.replicate (m - c) 0 else correctionVector
  let column0 := padded.take m
  let columnA := (fun v => (conv v purityTracer).take m)^[i] column0
  (fun v => (conv v tracerNADistribution).take m)^[nAtomTracer - i] columnA

/-- `NAProcess.computeCorrectionMatrix`, as the row-major embedding of the
`np.zeros((m, nAtomTracer+1))` array filled column by column.  The lookup
`elementDict[atomTracer]` is total because `parseFormula` initializes every
known element key to 0, so the `except` branch that would flag a missing
tracer never fires for the six modelled elements. -/
def computeCorrectionMatrix (elementDict : Element → ℕ) (atomTracer : Element)
    (purityTracer : List ℚ) : List (List ℚ) :=
  let nAtomTracer := elementDict atomTracer
  let m := 1 + nAtomTracer * ((NaturalAbundanceDistributions atomTracer).length - 1)
  (List.range m).map fun r =>
    (List.range (nAtomTracer + 1)).map fun i =>
      (correctionMatrixColumn elementDict atomTracer purityTracer i).getD r 0

/-- Test composition with no nitrogen: a single carbon atom (as in a
composition resolved from a formula that does not contain the tracer). -/
def noTracerDict : Element → ℕ := fun e => if e = Element.C then 1 else 0

/-- Test composition consisting of a single hydrogen atom. -/
def tracerOnlyDict : Element → ℕ := fun e => if e = Element.H then 1 else 0

/-- Correction method selector of `NAProcess.correctForNaturalAbundance`. -/
inductive Method where
  | SMC
  | LSC
deriving DecidableEq, Repr

/-- Number of columns of a row-major rational matrix: the length of its
first row (numpy arrays are rectangular). -/
def widthQ (M : List (List ℚ)) : ℕ := (M.headD []).length

/-- Transpose of a rectangular row-major matrix. -/
def transposeQ (M : List (List ℚ)) : List (List ℚ) :=
  (List.range (widthQ M)).map fun j => M.map fun r => r.getD j 0

/-- Matrix product of rectangular row-major matrices whose shapes conform
(used inside the pseudo-inverse, where numpy's own products always
conform). -/
def matMulQ (A B : List (List ℚ)) : List (List ℚ) :=
  A.map fun r => (List.range (widthQ B)).map fun j =>
    ((r.zip (B.map fun br => br.getD j 0)).map fun p => p.1 * p.2).sum

/-- `np.matmul` with the conformability requirement explicit: `none` models
the `ValueError` numpy raises on a dimension mismatch. -/
def matMulOpt (A B : List (List ℚ)) : Option (List (List ℚ)) :=
  if A.all (fun r => r.length = B.length) then some (matMulQ A B) else none

/-- Determinant by Laplace expansion along the first row, with an explicit
size parameter carrying the structural recursion (`detQ` instantiates it
with the row count). -/
def detSized : ℕ → List (List ℚ) → ℚ
  | 0, _ => 1
  | s + 1, M =>
      match M with
      | [] => 1
      | r :: rs =>
          ((List.range (s + 1)).map fun j =>
            (if j % 2 = 0 then (1 : ℚ) else -1) * r.getD j 0 *
              detSized s (rs.map fun row => row.eraseIdx j)).sum

/-- Determinant of a square rational matrix. -/
def detQ (M : List (List ℚ)) : ℚ := detSized M.length M

/-- Inverse of a square rational matrix via the adjugate formula, `none`
when the determinant vanishes. -/
def matInvAdjQ (M : List (List ℚ)) : Option (List (List ℚ)) :=
  if detQ M = 0 then none
  else
    some ((List.range M.length).map fun i => (List.range M.length).map fun j =>
      (if (i + j) % 2 = 0 then (1 : ℚ) else -1) *
        detQ ((M.eraseIdx j).map fun row => row.eraseIdx i) / detQ M)

/-- `np.linalg.pinv`.  For a full-column-rank input the Moore-Penrose
pseudo-inverse equals `(AᵀA)⁻¹Aᵀ`, which this definition computes exactly
(matrix inverses are unique); on rank-deficient input (`det (AᵀA) = 0`,
where numpy falls back to the SVD) only the `k × m` output shape is
modelled. -/
def pinvQ (A : List (List ℚ)) : List (List ℚ) :=
  let At := transposeQ A
  match matInvAdjQ (matMulQ At A) with
  | some B => matMulQ B At
  | none => List.replicate (widthQ A) (List.replicate A.length 0)

/-- `np.dot(M, v)` for a rectangular matrix and a vector; `none` models the
shape error raised on non-conforming sizes. -/
def matVecOpt (M : List (List ℚ)) (v : List ℚ) : Option (List ℚ) :=
  if M.all (fun r => r.length = v.length) then
    some (M.map fun r => ((r.zip v).map fun p => p.1 * p.2).sum)
  else none

/-- Elementwise vector difference; `none` models numpy's broadcast error on
mismatched lengths. -/
def vecSub (a b : List ℚ) : Option (List ℚ) :=
  if a.length = b.length then some ((a.zip b).map fun p => p.1 - p.2) else none

/-- The gradient returned by `NAProcess._computeCost`:
`-2 * Mᵀ (target - M · currentMID)`. -/
def computeCostGrad (correctionMatrix : List (List ℚ)) (target currentMID : List ℚ) :
    Option (List ℚ) := do
  let mx ← matVecOpt correctionMatrix currentMID
  let diff ← vecSub target mx
  let g ← matVecOpt (transposeQ correctionMatrix) diff
  pure (g.map fun v => v * (-2))

/-- Model of `scipy.optimize.minimize(..., method="L-BFGS-B",
bounds=[(0., inf)]*len(initialMID))` as invoked by `NAProcess._minimizeCost`:
box-constrained gradient-based minimization of `_computeCost` from the
given initial guess.  The optimizer's internal step-size selection is
abstracted by `alpha` and its iteration cap by `iters`; the model keeps
exactly the library's documented contract relevant here: every iterate
(hence the returned point) is the projection of a gradient step onto the
bound box `[0, ∞)`, the gradient is the one computed by `_computeCost`, and
the result has the length of the initial guess. -/
def lbfgsbModel (correctionMatrix : List (List ℚ)) (target : List ℚ) (alpha : ℚ) :
    ℕ → List ℚ → Option (List ℚ)
  | 0, x => some x
  | k + 1, x => do
      let g ← computeCostGrad correctionMatrix target x
      let x1 ← vecSub x (g.map fun v => alpha * v)
      lbfgsbModel correctionMatrix target alpha k (x1.map fun v => max v 0)

/-- Apply a fallible function to every list element, failing as soon as one
application fails (a Python list comprehension whose body may raise). -/
def mapMOpt {α β : Type} (f : α → Option β) : List α → Option (List β)
  | [] => some []
  | a :: l => do
      let b ← f a
      let bs ← mapMOpt f l
      pure (b :: bs)

/-- `NAProcess.correctForNaturalAbundance`: rebuild the correction matrix,
check sizes, zero-extend each observed row to the matrix's column count,
correct by the selected method (SMC: multiply by the transposed
pseudo-inverse and clamp negatives to 0; LSC: per-row bounded minimization
from the zero vector), and truncate the result back to the observed frame's
column count.  `none` models the crashes of the source: the
`UnboundLocalError` on `dfData` when the matrix has fewer columns than the
observed frame (only the warning is printed before the crash), and the
`IndexError` on `targetMIDList[0]` for an empty frame in the LSC branch. -/
def correctForNaturalAbundance (elementDict : Element → ℕ) (atomTracer : Element)
    (purityTracer : List ℚ) (dataFrame : List (List ℚ)) (method : Method)
    (alpha : ℚ) (iters : ℕ) : Option (List (List ℚ)) :=
  let correctionMatrix := computeCorrectionMatrix elementDict atomTracer purityTracer
  let nCols := elementDict atomTracer + 1
  let w := (dataFrame.headD []).length
  if nCols < w then none
  else
    let dfData := dataFrame.map fun r => r ++ List.replicate (nCols - r.length) 0
    match method with
    | .SMC =>
        (matMulOpt dfData (transposeQ (pinvQ correctionMatrix))).map fun product =>
          (product.map fun row => row.map fun v => max v 0).map fun row => row.take w
    | .LSC =>
        match dfData with
        | [] => none
        | r0 :: _ =>
            let initialMID := r0.map fun _ => (0 : ℚ)
            (mapMOpt (fun target =>
                lbfgsbModel correctionMatrix target alpha iters initialMID) dfData).map
              fun rows => rows.map fun row => row.take w

/-- A one-sample observed frame with three columns (wider than the 2-column
correction matrix of the one-hydrogen composition). -/
def wideDataFrame : List (List ℚ) := [[1, 0, 0]]

/-- A one-sample observed frame with a single column (narrower than the
2-column correction matrix of the one-hydrogen composition). -/
def narrowDataFrame : List (List ℚ) := [[1]]

/-- A detected ion: numeric id, nominal mass and free-text description, as
parsed by `MSDataContainer.__parseIon` from a raw column identifier. -/
structure Ion where
  id : ℕ
  mass : ℤ
  description : String
deriving DecidableEq, Repr

instance : Inhabited Ion := ⟨⟨0, 0, ""⟩⟩

/-- One step of run-grouping: prepend an ion to the group list, merging it
into the first group when the descriptions agree and opening a fresh group
otherwise. -/
def consGroup (x : ℕ × Ion) : List (String × List (ℕ × Ion)) → List (String × List (ℕ × Ion))
  | [] => [(x.2.description, [x])]
  | (k, g) :: rest =>
      if x.2.description = k then (k, x :: g) :: rest
      else (x.2.description, [x]) :: (k, g) :: rest

/-- `itertools.groupby(enumerate(ionsDetected), key=description)`: the
enumerated ions grouped into maximal runs of consecutive equal
descriptions (`groupby` groups only adjacent equal keys). -/
def groupByDescription : List (ℕ × Ion) → List (String × List (ℕ × Ion))
  | [] => []
  | x :: xs => consGroup x (groupByDescription xs)

/-- `sorted(group, key=lambda ion: ion[1]['mass'])`: Python's stable
ascending sort by mass, modelled by insertion sort (two stable sorts of the
same list by the same key agree). -/
def sortGroupByMass (g : List (ℕ × Ion)) : List (ℕ × Ion) :=
  List.insertionSort (fun a b => a.2.mass ≤ b.2.mass) g

/-- The grouped-and-sorted stage of `MSDataContainer.__getIonParentedGroups`:
group by parental description (consecutive runs) and sort each group by
ascending mass. -/
def groupsIntraSorted (ionsDetected : List Ion) : List (String × List (ℕ × Ion)) :=
  (groupByDescription ionsDetected.enum).map fun g => (g.1, sortGroupByMass g.2)

/-- A unit mass step between positions `k` and `k+1` of a group (read with
`getD`, in bounds whenever `k + 1 < g.length`). -/
def unitStepD (g : List (ℕ × Ion)) (k : ℕ) : Prop :=
  (g.getD (k + 1) default).2.mass - (g.getD k default).2.mass = 1

instance (g : List (ℕ × Ion)) (k : ℕ) : Decidable (unitStepD g k) := by
  unfold unitStepD
  infer_instance

/-- Positions of a sorted group where the mass difference to the next ion
is not 1: `np.where(differences != 1)`. -/
def massDiffPositions (g : List (ℕ × Ion)) : List ℕ :=
  (List.range (g.length - 1)).filter fun k => decide (¬ unitStepD g k)

/-- The slicing loop of `__getIonParentedGroups`: cut out
`group[start:idx[i]+1]` for every split position and the final
`group[start:]`, naming the pieces `key-0`, `key-1`, ... -/
def buildSubgroups (key : String) (g : List (ℕ × Ion)) :
    List ℕ → ℕ → ℕ → List (String × List (ℕ × Ion))
  | [], start, i => [(key ++ "-" ++ toString i, g.drop start)]
  | p :: rest, start, i =>
      (key ++ "-" ++ toString i, (g.take (p + 1)).drop start) ::
        buildSubgroups key g rest (p + 1) (i + 1)

/-- Per-group splitting of `__getIonParentedGroups`: a group with more than
one ion and at least one non-unit mass jump is cut at every such jump;
otherwise it is kept whole under its own key. -/
def splitGroup (key : String) (g : List (ℕ × Ion)) : List (String × List (ℕ × Ion)) :=
  if g.length = 1 then [(key, g)]
  else
    let idx := massDiffPositions g
    if 0 < idx.length then buildSubgroups key g idx 0 0
    else [(key, g)]

/-- `MSDataContainer.__getIonParentedGroups`: group by parental description,
sort within groups by ascending mass, and split groups at every non-unit
mass jump. -/
def getIonParentedGroups (ionsDetected : List Ion) : List (String × List (ℕ × Ion)) :=
  ((groupsIntraSorted ionsDetected).map fun g => splitGroup g.1 g.2).flatten

/-- The `M.n` isotopologue labels given to a final group's ions in
`MSDataContainer._computeFileAttributes` (`... M.{n}` for
`n,(idx,ion) in enumerate(group)`). -/
def mLabels (g : List (ℕ × Ion)) : List String :=
  g.enum.map fun p => "M." ++ toString p.1

/-- The per-cluster step of a resolved cluster: each ion's mass is one above
its predecessor's. -/
def clusterStep (a b : ℕ × Ion) : Prop := b.2.mass - a.2.mass = 1

/-- Adjacent final sub-clusters are separated by a non-unit mass jump. -/
def boundaryBreak (A B : String × List (ℕ × Ion)) : Prop :=
  ∀ a ∈ A.2.getLast?, ∀ b ∈ B.2.head?, b.2.mass - a.2.mass ≠ 1

/-- Five ions sharing one description, with masses 100,101,102,105,106. -/
def contiguityExampleIons : List Ion :=
  [⟨1, 100, "A"⟩, ⟨2, 101, "A"⟩, ⟨3, 102, "A"⟩, ⟨4, 105, "A"⟩, ⟨5, 106, "A"⟩]

/-- Three ions where the two with equal description "A" are separated by a
column with description "B". -/
def nonAdjacentIons : List Ion := [⟨1, 100, "A"⟩, ⟨2, 200, "B"⟩, ⟨3, 101, "A"⟩]

instance : IsTotal (ℕ × Ion) fun a b => a.2.mass ≤ b.2.mass := ⟨fun _ _ => le_total _ _⟩

instance : IsTrans (ℕ × Ion) fun a b => a.2.mass ≤ b.2.mass :=
  ⟨fun _ _ _ hab hbc => le_trans hab hbc⟩

/-- A standard-curve calibration column: its ion name, the nMoles values
`xvals` and the absorbance values `yvals`, entry `none` modelling a float
NaN (`np.nan`). -/
structure StdColumn where
  name : String
  xvals : List (Option ℚ)
  yvals : List (Option ℚ)
deriving Repr

/-- `np.isnan` on a value of the standards sheet. -/
def isNaNQ (x : Option ℚ) : Bool := x.isNone

/-- One entry of `mask1 = [~np.logical_or(np.isnan(x), np.isnan(y)) ...]`. -/
def mask1Entry (x y : Option ℚ) : Bool := !(isNaNQ x || isNaNQ y)

/-- One entry of `mask2 = [~np.logical_or(np.isnan(x), y==0) ...]`: a NaN
`y` compares unequal to 0, so only the literal value 0 is caught. -/
def mask2Entry (x y : Option ℚ) : Bool := !(isNaNQ x || y == some 0)

/-- The validity mask `mask = [(m1 & m2) for m1,m2 in zip(mask1, mask2)]`
of `MSDataContainer.computeStandardFits`. -/
def maskOf (xs ys : List (Option ℚ)) : List Bool :=
  (xs.zip ys).map fun p => mask1Entry p.1 p.2 && mask2Entry p.1 p.2

/-- numpy boolean indexing `vals[mask]`: keep the entries whose mask bit is
true. -/
def applyMask (vs : List (Option ℚ)) (m : List Bool) : List (Option ℚ) :=
  ((vs.zip m).filter fun p => p.2).map fun p => p.1

/-- Sum of a list of rationals. -/
def sumQ (l : List ℚ) : ℚ := l.foldr (· + ·) 0

/-- Arithmetic mean of a list of rationals. -/
def meanQ (l : List ℚ) : ℚ := sumQ l / l.length

/-- `scipy.stats.linregress` on exact rationals, returning
`(slope, intercept, R²)`.  `none` models the `ValueError` scipy raises
when all `x` values are identical (`ssxm = 0`); when the `y` values are
all identical scipy sets `r = 0`.  `R²` is `rvalue**2 = ssxym² / (ssxm*ssym)`,
which is rational even though `rvalue` itself is not. -/
def linregressQ (xs ys : List ℚ) : Option (ℚ × ℚ × ℚ) :=
  let xm := meanQ xs
  let ym := meanQ ys
  let ssxm := sumQ (xs.map fun x => (x - xm) ^ 2)
  let ssym := sumQ (ys.map fun y => (y - ym) ^ 2)
  let ssxym := sumQ ((xs.zip ys).map fun p => (p.1 - xm) * (p.2 - ym))
  if ssxm = 0 then none
  else
    let slope := ssxym / ssxm
    let intercept := ym - slope * xm
    let r2 := if ssym = 0 then 0 else ssxym ^ 2 / (ssxm * ssym)
    some (slope, intercept, r2)

/-- The per-column body of `MSDataContainer.computeStandardFits` (mask
computation onward).  The skip test is the source's
`if ((len(xvalsToFit)<3)|len(yvalsToFit)<3):` which, because `|` binds
tighter than `<` in Python, parses as
`(((len(xvalsToFit)<3) | len(yvalsToFit)) < 3)`: the boolean
`len(xvalsToFit)<3` coerces to the integer 0 or 1 and is bitwise-or'ed
(`Nat.lor`) with `len(yvalsToFit)` before the comparison with 3.  The outer
`none` models a scipy exception escaping the loop; the inner `none` is a
skipped column (`continue`). -/
def fitColumn (c : StdColumn) : Option (Option (String × (ℚ × ℚ × ℚ))) :=
  let m := maskOf c.xvals c.yvals
  let xvalsToFit := applyMask c.xvals m
  let yvalsToFit := applyMask c.yvals m
  if ((if xvalsToFit.length < 3 then 1 else 0) ||| yvalsToFit.length) < 3 then
    some none
  else
    (linregressQ (xvalsToFit.filterMap id) (yvalsToFit.filterMap id)).map
      fun f => some (c.name, f)

/-- `MSDataContainer.computeStandardFits` over the columns that have
standard nMoles data: fit each column, dropping the skipped ones from the
returned frame (a skipped column contributes no `slope/intercept/R2`
entry to `fitDf`). -/
def computeStandardFits (cols : List StdColumn) :
    Option (List (String × (ℚ × ℚ × ℚ))) :=
  (mapMOpt fitColumn cols).map fun l => l.filterMap id

/-- `MSDataContainer.computeQuantificationFromStandardFits`: for every
fitted column, quantify the normalized sample signals `signals name` as
`(dataDf_norm[col]-intercept)/slope`; skipped columns contribute no result
column. -/
def computeQuantificationFromStandardFits (cols : List StdColumn)
    (signals : String → List ℚ) : Option (List (String × List ℚ)) :=
  (computeStandardFits cols).map fun fits =>
    fits.map fun f => (f.1, (signals f.1).map fun v => (v - f.2.2.1) / f.2.1)

/-- Looking an ion up in the quantification frame: `none` is a missing
value (the column is absent from `resultsDf`). -/
def quantFor (res : List (String × List ℚ)) (col : String) : Option (List ℚ) :=
  (res.find? fun p => p.1 == col).map fun p => p.2

/-- A calibration column with exactly two valid points: the third x-value
is NaN, so the mask keeps only `(1, 2)` and `(2, 4)`. -/
def twoPointColumn : StdColumn :=
  ⟨"C16:0 (270)", [some 1, some 2, none], [some 2, some 4, some 6]⟩

/-- A calibration column with exactly one valid point: the second y-value
is 0 and the third x-value is NaN. -/
def onePointColumn : StdColumn :=
  ⟨"C18:0 (298)", [some 1, some 2, none], [some 2, some 0, some 6]⟩

/-- Sample signals for the calibration example: every ion reads 6. -/
def exampleSignals : String → List ℚ := fun _ => [6]

/-- The dictionary built by `parseFormula` maps each element to the sum of
the counts of the tokens carrying that element (clamped at 0 per token, as
`int(n)` of a matched digit run is never negative). -/
theorem parseFormula_eq_sum (tokens : List (Element × ℤ)) (e : Element) :
    parseFormula tokens e =
      ((tokens.filter (fun t => decide (t.1 = e))).map (fun t => t.2.toNat)).sum := by
  suffices h : ∀ (ts : List (Element × ℤ)) (dAcc : Element → ℕ),
      (ts.foldl (fun d t => fun x => if x = t.1 then d x + t.2.toNat else d x) dAcc) e =
        dAcc e + ((ts.filter (fun t => decide (t.1 = e))).map (fun t => t.2.toNat)).sum by
    have := h tokens (fun _ => 0)
    simpa [parseFormula] using this
  intro ts
  induction ts with
  | nil => intro dAcc; simp
  | cons t ts ih =>
      intro dAcc
      by_cases he : t.1 = e
      · simp only [List.foldl_cons, List.filter_cons, he, decide_True, if_true, ih,
          List.map_cons, List.sum_cons]
        simp [he, Nat.add_assoc]
      · simp only [List.foldl_cons, List.filter_cons, ih]
        simp [he, Ne.symm he]

/-- Claim C6 (corrected): for a parseable chain notation `Cn:d` whose computed
hydrogen count is nonnegative, the composition resolved by
`getFAFormulaString` followed by `parseFormula` has carbon `n` (+1 if
derivatized), hydrogen `3+(n−2)×2+1−2d` (+2 if derivatized), oxygen 2, and
no other element.  The nonnegativity hypothesis is forced by the
counterexample `c6_hydrogen_clamped_counterexample`: a negative computed
hydrogen count is silently dropped from the formula string and parses back
as 0. -/
theorem c6_fa_composition (entry : String) (n d : ℕ) (fames : Bool)
    (hfind : findChain entry.toList = some (n, d))
    (hh : 0 ≤ 3 + ((n : ℤ) - 2) * 2 + 1 - 2 * (d : ℤ) + (if fames then 2 else 0)) :
    (getFAFormulaTokens entry fames false).map parseFormula =
      some (specFAComposition n d fames) := by
  rw [getFAFormulaTokens, hfind]
  simp only [Option.map_some']
  congr 1
  funext e
  rw [parseFormula_eq_sum]
  simp only [faTokens]
  rw [List.filter_filter]
  cases fames <;> cases e <;>
    simp [specFAComposition, List.filter_cons, Bool.and_eq_true, decide_eq_true_eq] <;>
    (try split_ifs) <;> (try simp_all) <;> omega

/-- Claim C6 counterexample: for the parseable chain notation `C2:3`
(no derivatization) the spec formula gives hydrogen
`3+(2−2)×2+1−2×3 = −2`, but the resolved composition has hydrogen 0: the
negative count is dropped from the formula string, so the claim's equation
fails at this input. -/
theorem c6_hydrogen_clamped_counterexample :
    findChain ("C2:3".toList) = some (2, 3) ∧
    ((parseFormula ((getFAFormulaTokens "C2:3" false false).getD []) Element.H : ℤ) ≠
      3 + ((2 : ℤ) - 2) * 2 + 1 - 2 * 3) := by
  exact ⟨by decide, by decide⟩

/-- Witness for `c6_fa_composition`: chain "C16:0" with methyl-ester
derivatization resolves to exactly the composition C 17, H 34, O 2. -/
theorem c6_fa_composition_witness :
    findChain ("C16:0".toList) = some (16, 0) ∧
    (getFAFormulaTokens "C16:0" true false).map parseFormula =
      some (specFAComposition 16 0 true) ∧
    specFAComposition 16 0 true Element.C = 17 ∧
    specFAComposition 16 0 true Element.H = 34 ∧
    specFAComposition 16 0 true Element.O = 2 :=
  ⟨by decide, c6_fa_composition "C16:0" 16 0 true (by decide) (by decide),
    by decide, by decide, by decide⟩

/-- Reading a list entry with default 0 ignores appended trailing zeros. -/
theorem getD_append_replicate (l : List ℚ) (z i : ℕ) :
    (l ++ List.replicate z 0).getD i 0 = l.getD i 0 := by
  rw [List.getD_eq_getElem?_getD, List.getD_eq_getElem?_getD, List.getElem?_append]
  rcases lt_or_le i l.length with h | h
  · rw [if_pos h]
  · rw [if_neg (by omega), List.getElem?_replicate, List.getElem?_eq_none h]
    by_cases hz : i - l.length < z <;> simp [hz]

/-- Reading an entry of a truncated list below the cut ignores the cut. -/
theorem getD_take_lt (l : List ℚ) (m i : ℕ) (h : i < m) :
    (l.take m).getD i 0 = l.getD i 0 := by
  rw [List.getD_eq_getElem?_getD, List.getD_eq_getElem?_getD, List.getElem?_take, if_pos h]

/-- Reading an entry of a truncated list at or above the cut gives the default. -/
theorem getD_take_ge (l : List ℚ) (m i : ℕ) (h : m ≤ i) :
    (l.take m).getD i 0 = 0 := by
  rw [List.getD_eq_getElem?_getD, List.getElem?_take, if_neg (by omega)]
  rfl

/-- The full convolution has length `a.length + b.length - 1`. -/
theorem conv_length (a b : List ℚ) : (conv a b).length = a.length + b.length - 1 := by
  simp [conv]

/-- `getD` with default 0 agrees with `getElem` in bounds. -/
theorem getD_eq_getElem_of_lt (l : List ℚ) (i : ℕ) (h : i < l.length) :
    l.getD i 0 = l[i] := by
  rw [List.getD_eq_getElem?_getD, List.getElem?_eq_getElem h]
  rfl

/-- Beyond the length of the full convolution every entry vanishes. -/
theorem convEntry_vanish (a b : List ℚ) (k : ℕ) (h : a.length + b.length - 1 ≤ k) :
    convEntry a b k = 0 := by
  apply List.sum_eq_zero
  intro x hx
  rcases List.mem_map.mp hx with ⟨i, hi, rfl⟩
  rcases lt_or_le i a.length with ha | ha
  · have hb : b.length ≤ k - i := by
      have := List.mem_range.mp hi
      omega
    rw [List.getD_eq_default _ _ hb, mul_zero]
  · rw [List.getD_eq_default _ _ ha, zero_mul]

/-- Every entry of the convolution list is the corresponding `convEntry`
(and 0 beyond, where `convEntry` vanishes as well). -/
theorem conv_getD (a b : List ℚ) (k : ℕ) :
    (conv a b).getD k 0 = convEntry a b k := by
  rcases lt_or_le k (a.length + b.length - 1) with h | h
  · have hr : (List.range (a.length + b.length - 1))[k]? = some k := by
      simp [List.getElem?_range, h]
    rw [List.getD_eq_getElem?_getD, conv, List.getElem?_map, hr]
    rfl
  · have h0 : (conv a b).getD k 0 = 0 := by
      rw [List.getD_eq_getElem?_getD, List.getElem?_eq_none (by simpa [conv_length] using h)]
      rfl
    rw [h0]
    exact (convEntry_vanish a b k h).symm

/-- A convolution entry only depends on the first `k+1` entries of the left
argument. -/
theorem convEntry_congr (a a' b : List ℚ) (k : ℕ)
    (h : ∀ i, i ≤ k → a.getD i 0 = a'.getD i 0) :
    convEntry a b k = convEntry a' b k := by
  unfold convEntry
  congr 1
  apply List.map_congr_left
  intro i hi
  rw [h i (by have := List.mem_range.mp hi; omega)]

/-- Two rational lists of the same length with the same `getD` entries are
equal. -/
theorem list_ext_getD (x y : List ℚ) (hlen : x.length = y.length)
    (h : ∀ i, x.getD i 0 = y.getD i 0) : x = y := by
  apply List.ext_getElem hlen
  intro i h1 h2
  have hi := h i
  rwa [getD_eq_getElem_of_lt _ _ h1, getD_eq_getElem_of_lt _ _ h2] at hi

/-- Truncating before a convolution does not change the truncated result:
the first `m` entries of `conv a b` depend only on the first `m` entries
of `a`. -/
theorem take_conv_take (a b : List ℚ) (m : ℕ) (hb : b ≠ []) :
    (conv (a.take m) b).take m = (conv a b).take m := by
  have hb1 : 1 ≤ b.length := List.length_pos.mpr hb
  apply list_ext_getD
  · simp only [List.length_take, conv_length]
    omega
  · intro i
    rcases lt_or_le i m with h | h
    · rw [getD_take_lt _ _ _ h, getD_take_lt _ _ _ h, conv_getD, conv_getD]
      exact convEntry_congr _ _ _ _ (fun j hj => getD_take_lt _ _ _ (by omega))
    · rw [getD_take_ge _ _ _ h, getD_take_ge _ _ _ h]

/-- Convolving a zero-padded list convolves the unpadded list and keeps the
padding. -/
theorem conv_append_replicate (a b : List ℚ) (z : ℕ) (hb : b ≠ []) :
    conv (a ++ List.replicate z 0) b = conv a b ++ List.replicate z 0 := by
  have hb1 : 1 ≤ b.length := List.length_pos.mpr hb
  apply list_ext_getD
  · simp only [conv_length, List.length_append, List.length_replicate]
    omega
  · intro i
    rw [conv_getD, getD_append_replicate (conv a b) z i, conv_getD]
    exact convEntry_congr _ _ _ _ (fun j hj => getD_append_replicate a z j)

/-- Iterating convolve-then-truncate from a truncated start equals
truncating the fully iterated convolution. -/
theorem iterate_take_conv (b : List ℚ) (m : ℕ) (hb : b ≠ []) (x : List ℚ) (k : ℕ) :
    (fun v => (conv v b).take m)^[k] (x.take m) =
      ((fun v => conv v b)^[k] x).take m := by
  induction k with
  | zero => rfl
  | succ k ih =>
      rw [Function.iterate_succ_apply', Function.iterate_succ_apply', ih]
      exact take_conv_take _ b m hb

/-- Iterated convolution of a zero-padded list keeps the padding outside. -/
theorem iterate_conv_append_replicate (b : List ℚ) (z : ℕ) (hb : b ≠ []) (a : List ℚ)
    (k : ℕ) :
    (fun v => conv v b)^[k] (a ++ List.replicate z 0) =
      ((fun v => conv v b)^[k] a) ++ List.replicate z 0 := by
  induction k with
  | zero => rfl
  | succ k ih =>
      rw [Function.iterate_succ_apply', Function.iterate_succ_apply', ih]
      exact conv_append_replicate _ b z hb

/-- Length of an iterated convolution. -/
theorem iterate_conv_length (b : List ℚ) (hb : b ≠ []) (a : List ℚ) (k : ℕ) :
    ((fun v => conv v b)^[k] a).length = a.length + k * (b.length - 1) := by
  have hb1 : 1 ≤ b.length := List.length_pos.mpr hb
  induction k with
  | zero => simp
  | succ k ih =>
      rw [Function.iterate_succ_apply']
      show (conv ((fun v => conv v b)^[k] a) b).length = _
      rw [conv_length, ih, Nat.succ_mul]
      generalize k * (b.length - 1) = t
      omega

/-- Every modelled isotope distribution is nonempty. -/
theorem NaturalAbundanceDistributions_ne_nil (e : Element) :
    NaturalAbundanceDistributions e ≠ [] := by
  cases e <;> simp [NaturalAbundanceDistributions]

/-- The correction vector is never empty (it starts from `[1.]` and every
convolution keeps at least one entry). -/
theorem calculateMassDistributionVector_length_pos (elementDict : Element → ℕ)
    (atomTracer : Element) :
    1 ≤ (calculateMassDistributionVector elementDict atomTracer).length := by
  unfold calculateMassDistributionVector
  suffices h : ∀ (l : List Element) (acc : List ℚ), 1 ≤ acc.length →
      1 ≤ (l.foldl
        (fun result atom =>
          if atom = atomTracer then result
          else (fun v => conv v (NaturalAbundanceDistributions atom))^[elementDict atom] result)
        acc).length by
    exact h elementList [1] (by simp)
  intro l
  induction l with
  | nil => intro acc hacc; simpa using hacc
  | cons e l ih =>
      intro acc hacc
      rw [List.foldl_cons]
      apply ih
      by_cases he : e = atomTracer
      · simpa [he] using hacc
      · rw [if_neg he, iterate_conv_length _ (NaturalAbundanceDistributions_ne_nil e)]
        generalize elementDict e * ((NaturalAbundanceDistributions e).length - 1) = t
        omega

/-- Column 0 of the correction matrix, with the per-step truncations
collapsed into a single final truncation. -/
theorem correctionMatrixColumn_zero (elementDict : Element → ℕ) (atomTracer : Element)
    (purityTracer : List ℚ) :
    correctionMatrixColumn elementDict atomTracer purityTracer 0 =
      ((fun v => conv v (NaturalAbundanceDistributions atomTracer))^[elementDict atomTracer]
        (calculateMassDistributionVector elementDict atomTracer)).take
        (1 + elementDict atomTracer * ((NaturalAbundanceDistributions atomTracer).length - 1)) := by
  have hTne := NaturalAbundanceDistributions_ne_nil atomTracer
  have hcv1 := calculateMassDistributionVector_length_pos elementDict atomTracer
  simp only [correctionMatrixColumn, Function.iterate_zero, id_eq, Nat.sub_zero]
  by_cases hlt : (calculateMassDistributionVector elementDict atomTracer).length <
      1 + elementDict atomTracer * ((NaturalAbundanceDistributions atomTracer).length - 1)
  · rw [if_pos hlt, iterate_take_conv _ _ hTne, iterate_conv_append_replicate _ _ hTne]
    rw [List.take_append_of_le_length]
    rw [iterate_conv_length _ hTne]
    generalize elementDict atomTracer * ((NaturalAbundanceDistributions atomTracer).length - 1) = t
    omega
  · rw [if_neg hlt, iterate_take_conv _ _ hTne]

/-- Rebuilding a list from its `getD` entries over its index range gives the
list back. -/
theorem range_map_getD (l : List ℚ) :
    (List.range l.length).map (fun r => l.getD r 0) = l := by
  apply List.ext_getElem (by simp)
  intro i h1 h2
  rw [List.getElem_map, List.getElem_range]
  exact getD_eq_getElem_of_lt l i h2

/-- Claim C7: for a composition containing at least one tracer atom, column 0
of the correction matrix equals the base correction vector (the convolution
of the natural distributions of all non-tracer elements, taken count times
each) convolved `n` times with the tracer's own natural distribution and
truncated to `m = 1 + n*(tracerIsotopeCount-1)` rows. -/
theorem c7_matrix_column_zero (elementDict : Element → ℕ) (atomTracer : Element)
    (purityTracer : List ℚ) (_h : 1 ≤ elementDict atomTracer) :
    (computeCorrectionMatrix elementDict atomTracer purityTracer).map
        (fun row => row.getD 0 0) =
      ((fun v => conv v (NaturalAbundanceDistributions atomTracer))^[elementDict atomTracer]
        (calculateMassDistributionVector elementDict atomTracer)).take
        (1 + elementDict atomTracer * ((NaturalAbundanceDistributions atomTracer).length - 1)) := by
  rw [← correctionMatrixColumn_zero elementDict atomTracer purityTracer]
  have hlen : (correctionMatrixColumn elementDict atomTracer purityTracer 0).length =
      1 + elementDict atomTracer * ((NaturalAbundanceDistributions atomTracer).length - 1) := by
    rw [correctionMatrixColumn_zero, List.length_take,
      iterate_conv_length _ (NaturalAbundanceDistributions_ne_nil atomTracer)]
    have hcv1 := calculateMassDistributionVector_length_pos elementDict atomTracer
    generalize elementDict atomTracer *
      ((NaturalAbundanceDistributions atomTracer).length - 1) = t
    omega
  simp only [computeCorrectionMatrix, List.map_map]
  conv_rhs => rw [← range_map_getD (correctionMatrixColumn elementDict atomTracer purityTracer 0),
    hlen]
  apply List.map_congr_left
  intro r hr
  have hrow : ((List.range (elementDict atomTracer + 1)).map
      (fun i => (correctionMatrixColumn elementDict atomTracer purityTracer i).getD r 0)).getD
        0 0 =
      (correctionMatrixColumn elementDict atomTracer purityTracer 0).getD r 0 := by
    rw [getD_eq_getElem_of_lt _ 0 (by simp), List.getElem_map, List.getElem_range]
  simp

/-- Witness for `c7_matrix_column_zero` at the one-hydrogen composition with
tracer H and purity vector `[0, 1]`. -/
theorem c7_matrix_column_zero_witness :
    1 ≤ tracerOnlyDict Element.H ∧
    (computeCorrectionMatrix tracerOnlyDict Element.H [0, 1]).map
        (fun row => row.getD 0 0) =
      ((fun v => conv v (NaturalAbundanceDistributions Element.H))^[tracerOnlyDict Element.H]
        (calculateMassDistributionVector tracerOnlyDict Element.H)).take
        (1 + tracerOnlyDict Element.H * ((NaturalAbundanceDistributions Element.H).length - 1)) :=
  ⟨by decide, c7_matrix_column_zero tracerOnlyDict Element.H [0, 1] (by decide)⟩

/-- Claim C2 (code bug): for a composition with zero tracer atoms,
`computeCorrectionMatrix` raises no `TracerAbsentError`: the tracer lookup
is total (every element key is initialized to 0 by `parseFormula`), so the
guarding `except` never fires and a 1×1 matrix is produced.  Here: a
single-carbon composition with tracer N yields the matrix `[[0.9893]]`. -/
theorem c2_zero_tracer_matrix_produced :
    noTracerDict Element.N = 0 ∧
    computeCorrectionMatrix noTracerDict Element.N [0, 1] = [[0.9893]] := by
  refine ⟨rfl, ?_⟩
  simp [computeCorrectionMatrix, correctionMatrixColumn, calculateMassDistributionVector,
    elementList, noTracerDict, NaturalAbundanceDistributions, conv, convEntry,
    List.range_succ]

/-- Head of a mapped range. -/
theorem headD_map_range {α : Type} (f : ℕ → α) (m : ℕ) (d : α) (hm : 0 < m) :
    ((List.range m).map f).headD d = f 0 := by
  cases m with
  | zero => omega
  | succ k =>
      rw [List.range_succ_eq_map]
      simp

/-- A nonempty matrix whose rows all have length `L` has width `L`. -/
theorem widthQ_eq_of_forall_rows (M : List (List ℚ)) (L : ℕ) (hne : M ≠ [])
    (h : ∀ r ∈ M, r.length = L) : widthQ M = L := by
  cases M with
  | nil => exact absurd rfl hne
  | cons r rs => exact h r (List.mem_cons_self r rs)

/-- Transpose has one row per column of the input. -/
theorem transposeQ_length (M : List (List ℚ)) : (transposeQ M).length = widthQ M := by
  simp [transposeQ]

/-- Every row of the transpose has one entry per row of the input. -/
theorem transposeQ_rows (M : List (List ℚ)) (r : List ℚ) (hr : r ∈ transposeQ M) :
    r.length = M.length := by
  rcases List.mem_map.mp hr with ⟨j, hj, rfl⟩
  simp

/-- Width of the transpose of a matrix with at least one column. -/
theorem widthQ_transposeQ (A : List (List ℚ)) (h : 0 < widthQ A) :
    widthQ (transposeQ A) = A.length := by
  show ((transposeQ A).headD []).length = A.length
  rw [transposeQ, headD_map_range _ _ _ h]
  simp

/-- A matrix product has one row per row of the left factor. -/
theorem matMulQ_length (A B : List (List ℚ)) : (matMulQ A B).length = A.length := by
  simp [matMulQ]

/-- Every row of a matrix product has one entry per column of the right
factor. -/
theorem matMulQ_rows (A B : List (List ℚ)) (r : List ℚ) (hr : r ∈ matMulQ A B) :
    r.length = widthQ B := by
  rcases List.mem_map.mp hr with ⟨a, ha, rfl⟩
  simp

/-- A successful adjugate inversion keeps the input's row count. -/
theorem matInvAdjQ_some_length (M B : List (List ℚ)) (h : matInvAdjQ M = some B) :
    B.length = M.length := by
  unfold matInvAdjQ at h
  split_ifs at h
  rw [Option.some_inj] at h
  rw [← h]
  simp

/-- The pseudo-inverse of an `m × k` matrix has `k` rows. -/
theorem pinvQ_length (A : List (List ℚ)) : (pinvQ A).length = widthQ A := by
  simp only [pinvQ]
  cases h : matInvAdjQ (matMulQ (transposeQ A) A) with
  | none => simp
  | some B =>
      rw [matMulQ_length, matInvAdjQ_some_length _ _ h, matMulQ_length, transposeQ_length]

/-- Every row of the pseudo-inverse of an `m × k` matrix has `m` entries. -/
theorem pinvQ_rows (A : List (List ℚ)) (r : List ℚ) (hr : r ∈ pinvQ A) :
    r.length = A.length := by
  simp only [pinvQ] at hr
  cases h : matInvAdjQ (matMulQ (transposeQ A) A) with
  | none =>
      rw [h] at hr
      rcases List.eq_of_mem_replicate hr with rfl
      simp
  | some B =>
      rw [h] at hr
      rcases Nat.eq_zero_or_pos (widthQ A) with hw | hw
      · have hB : B.length = 0 := by
          rw [matInvAdjQ_some_length _ _ h, matMulQ_length, transposeQ_length, hw]
        rcases List.length_eq_zero.mp hB with rfl
        simp [matMulQ] at hr
      · have := matMulQ_rows B (transposeQ A) r hr
        rw [this, widthQ_transposeQ A hw]

/-- The correction matrix has `m = 1 + n*(tracerIsotopeCount-1)` rows. -/
theorem computeCorrectionMatrix_length (elementDict : Element → ℕ) (atomTracer : Element)
    (purityTracer : List ℚ) :
    (computeCorrectionMatrix elementDict atomTracer purityTracer).length =
      1 + elementDict atomTracer * ((NaturalAbundanceDistributions atomTracer).length - 1) := by
  simp [computeCorrectionMatrix]

/-- The correction matrix has `nAtomTracer + 1` columns. -/
theorem computeCorrectionMatrix_width (elementDict : Element → ℕ) (atomTracer : Element)
    (purityTracer : List ℚ) :
    widthQ (computeCorrectionMatrix elementDict atomTracer purityTracer) =
      elementDict atomTracer + 1 := by
  show ((computeCorrectionMatrix elementDict atomTracer purityTracer).headD []).length = _
  rw [computeCorrectionMatrix, headD_map_range _ _ _ (Nat.add_pos_left Nat.one_pos _)]
  simp

/-- A successful elementwise difference has the length of its left operand. -/
theorem vecSub_length (a b c : List ℚ) (h : vecSub a b = some c) : c.length = a.length := by
  unfold vecSub at h
  split_ifs at h with hc
  rw [Option.some_inj] at h
  rw [← h]
  simp [List.length_zip]
  omega

/-- A successful `mapMOpt` returns one output per input. -/
theorem mapMOpt_length {α β : Type} (f : α → Option β) (l : List α) (ys : List β)
    (h : mapMOpt f l = some ys) : ys.length = l.length := by
  induction l generalizing ys with
  | nil =>
      simp only [mapMOpt] at h
      cases h
      rfl
  | cons a l ih =>
      simp only [mapMOpt] at h
      cases hfa : f a with
      | none => rw [hfa] at h; simp at h
      | some b =>
          rw [hfa] at h
          cases hml : mapMOpt f l with
          | none => rw [hml] at h; simp at h
          | some bs =>
              rw [hml] at h
              simp at h
              subst h
              simp [ih bs hml]

/-- Every output of a successful `mapMOpt` comes from some input. -/
theorem mapMOpt_mem {α β : Type} (f : α → Option β) (l : List α) (ys : List β)
    (h : mapMOpt f l = some ys) (y : β) (hy : y ∈ ys) : ∃ x ∈ l, f x = some y := by
  induction l generalizing ys with
  | nil =>
      simp only [mapMOpt] at h
      cases h
      cases hy
  | cons a l ih =>
      simp only [mapMOpt] at h
      cases hfa : f a with
      | none => rw [hfa] at h; simp at h
      | some b =>
          rw [hfa] at h
          cases hml : mapMOpt f l with
          | none => rw [hml] at h; simp at h
          | some bs =>
              rw [hml] at h
              simp at h
              subst h
              rcases List.mem_cons.mp hy with rfl | hmem
              · exact ⟨a, List.mem_cons_self a l, hfa⟩
              · rcases ih bs hml hmem with ⟨x, hx, hfx⟩
                exact ⟨x, List.mem_cons_of_mem a hx, hfx⟩

/-- A result of the optimizer model has the length of its starting point. -/
theorem lbfgsbModel_length (M : List (List ℚ)) (t : List ℚ) (alpha : ℚ) (k : ℕ)
    (x y : List ℚ) (h : lbfgsbModel M t alpha k x = some y) : y.length = x.length := by
  induction k generalizing x with
  | zero =>
      simp only [lbfgsbModel] at h
      cases h
      rfl
  | succ k ih =>
      simp only [lbfgsbModel] at h
      cases hg : computeCostGrad M t x with
      | none => rw [hg] at h; simp at h
      | some g =>
          rw [hg] at h
          simp only [Option.bind_eq_bind, Option.some_bind] at h
          cases hx1 : vecSub x (g.map fun v => alpha * v) with
          | none => rw [hx1] at h; simp at h
          | some x1 =>
              rw [hx1] at h
              simp only [Option.bind_eq_bind, Option.some_bind] at h
              rw [ih _ h, List.length_map, vecSub_length _ _ _ hx1]

/-- Every iterate of the optimizer model after a step is clamped onto the
bound box, so a result starting from a nonnegative point stays
nonnegative. -/
theorem lbfgsbModel_nonneg (M : List (List ℚ)) (t : List ℚ) (alpha : ℚ) (k : ℕ)
    (x y : List ℚ) (h : lbfgsbModel M t alpha k x = some y)
    (hx : ∀ v ∈ x, 0 ≤ v) : ∀ v ∈ y, 0 ≤ v := by
  induction k generalizing x with
  | zero =>
      simp only [lbfgsbModel] at h
      cases h
      exact hx
  | succ k ih =>
      simp only [lbfgsbModel] at h
      cases hg : computeCostGrad M t x with
      | none => rw [hg] at h; simp at h
      | some g =>
          rw [hg] at h
          simp only [Option.bind_eq_bind, Option.some_bind] at h
          cases hx1 : vecSub x (g.map fun v => alpha * v) with
          | none => rw [hx1] at h; simp at h
          | some x1 =>
              rw [hx1] at h
              simp only [Option.bind_eq_bind, Option.some_bind] at h
              apply ih _ h
              intro v hv
              rcases List.mem_map.mp hv with ⟨u, hu, rfl⟩
              exact le_max_right u 0

/-- Claim C1 (code bug): when the observed frame has more columns than the
correction matrix, `correctForNaturalAbundance` only prints its warning and
then crashes (`dfData` is never assigned, so its first use raises
`UnboundLocalError`); no truncation happens and no corrected frame is
returned.  Here the one-hydrogen composition yields a matrix with
`n+1 = 2` columns and a 3-column observed frame makes the method abort. -/
theorem c1_wider_data_aborts :
    correctForNaturalAbundance tracerOnlyDict Element.H [0, 1] wideDataFrame Method.SMC 0 0 =
      none := rfl

/-- Claim C3 (corrected): whenever `correctForNaturalAbundance` returns a
corrected frame, the frame has one row per input sample and exactly as many
columns as the observed input frame (the corrected data, computed over the
matrix's `n+1` components, is truncated back to the input's column count by
`correctedData[:, :dataFrame.shape[1]]`) — not `n+1` columns as claimed. -/
theorem c3_output_shape (elementDict : Element → ℕ) (atomTracer : Element)
    (purityTracer : List ℚ) (dataFrame : List (List ℚ)) (method : Method)
    (alpha : ℚ) (iters : ℕ) (out : List (List ℚ))
    (hres : correctForNaturalAbundance elementDict atomTracer purityTracer dataFrame method
        alpha iters = some out) :
    out.length = dataFrame.length ∧
      ∀ row ∈ out, row.length = (dataFrame.headD []).length := by
  simp only [correctForNaturalAbundance] at hres
  by_cases hguard : elementDict atomTracer + 1 < (dataFrame.headD []).length
  · rw [if_pos hguard] at hres
    cases hres
  · rw [if_neg hguard] at hres
    cases method with
    | SMC =>
        have hm : 0 < (computeCorrectionMatrix elementDict atomTracer purityTracer).length := by
          rw [computeCorrectionMatrix_length]
          exact Nat.add_pos_left Nat.one_pos _
        have hPlen : (pinvQ (computeCorrectionMatrix elementDict atomTracer
            purityTracer)).length = elementDict atomTracer + 1 := by
          rw [pinvQ_length, computeCorrectionMatrix_width]
        have hPw : widthQ (pinvQ (computeCorrectionMatrix elementDict atomTracer
            purityTracer)) = (computeCorrectionMatrix elementDict atomTracer
            purityTracer).length := by
          apply widthQ_eq_of_forall_rows
          · exact List.length_pos.mp (by rw [hPlen]; omega)
          · exact fun r hr => pinvQ_rows _ r hr
        have hBt : widthQ (transposeQ (pinvQ (computeCorrectionMatrix elementDict atomTracer
            purityTracer))) = elementDict atomTracer + 1 := by
          rw [widthQ_transposeQ _ (by rw [hPw]; exact hm), hPlen]
        rcases Option.map_eq_some'.mp hres with ⟨product, hprod, hout⟩
        have hprodQ : product = matMulQ (dataFrame.map fun r =>
            r ++ List.replicate (elementDict atomTracer + 1 - r.length) 0)
            (transposeQ (pinvQ (computeCorrectionMatrix elementDict atomTracer
              purityTracer))) := by
          unfold matMulOpt at hprod
          split_ifs at hprod
          exact (Option.some_inj.mp hprod).symm
        constructor
        · rw [← hout, hprodQ]
          simp [matMulQ]
        · intro row hrow
          rw [← hout] at hrow
          rcases List.mem_map.mp hrow with ⟨row1, hrow1, rfl⟩
          rcases List.mem_map.mp hrow1 with ⟨row2, hrow2, rfl⟩
          have h2 : row2.length = widthQ (transposeQ (pinvQ (computeCorrectionMatrix
              elementDict atomTracer purityTracer))) :=
            matMulQ_rows _ _ _ (by rw [← hprodQ]; exact hrow2)
          rw [List.length_take, List.length_map, h2, hBt]
          omega
    | LSC =>
        cases dataFrame with
        | nil => simp at hres
        | cons r rest =>
            simp only [List.map_cons] at hres
            rcases Option.map_eq_some'.mp hres with ⟨xs, hxs, hout⟩
            have hlenxs := mapMOpt_length _ _ _ hxs
            constructor
            · rw [← hout]
              simp only [List.length_map, hlenxs, List.length_cons]
            · intro row hrow
              rw [← hout] at hrow
              rcases List.mem_map.mp hrow with ⟨x, hx, rfl⟩
              rcases mapMOpt_mem _ _ _ hxs x hx with ⟨target, htmem, hsolve⟩
              have hxlen := lbfgsbModel_length _ _ _ _ _ _ hsolve
              rw [List.length_take, hxlen]
              simp only [List.length_map, List.length_append, List.length_replicate,
                List.headD_cons]
              omega

/-- Claim C3 counterexample: the one-hydrogen composition (tracer H) has
`n+1 = 2` true-abundance components, but correcting a one-column observed
frame returns a one-column frame, not a 2-column one. -/
theorem c3_width_counterexample :
    correctForNaturalAbundance tracerOnlyDict Element.H [0, 1] narrowDataFrame Method.LSC 0 0 =
      some [[0]] ∧
    [[(0 : ℚ)]].map List.length = [1] ∧ tracerOnlyDict Element.H + 1 = 2 :=
  ⟨rfl, rfl, rfl⟩

/-- Witness for `c3_output_shape` at a concrete corrected frame. -/
theorem c3_output_shape_witness :
    [[(0 : ℚ)]].length = narrowDataFrame.length ∧
      ∀ row ∈ [[(0 : ℚ)]], row.length = (narrowDataFrame.headD []).length :=
  c3_output_shape tracerOnlyDict Element.H [0, 1] narrowDataFrame Method.LSC 0 0 [[0]] rfl

/-- Evaluation of the least-squares correction on a concrete one-sample,
one-column frame with one model gradient step: the pipeline succeeds and
returns the (nonnegative) clamped gradient iterate truncated to the input
width. -/
theorem lsc_concrete_eval :
    correctForNaturalAbundance tracerOnlyDict Element.H [0, 1] narrowDataFrame Method.LSC 1 1 =
      some [[1.99977]] := by
  have hCM : computeCorrectionMatrix tracerOnlyDict Element.H [0, 1] =
      [[0.999885, 0], [0.000115, 1]] := by
    simp [computeCorrectionMatrix, correctionMatrixColumn, calculateMassDistributionVector,
      elementList, tracerOnlyDict, NaturalAbundanceDistributions, conv, convEntry,
      List.range_succ]
  simp only [correctForNaturalAbundance, hCM]
  norm_num [mapMOpt, lbfgsbModel, computeCostGrad, matVecOpt, vecSub, transposeQ, widthQ,
    narrowDataFrame, tracerOnlyDict, List.range_succ]

/-- Claim C8: every component of a corrected frame produced by the LSC
method on a nonnegative observed input is nonnegative: the initial guess is
the zero vector and every optimizer iterate is projected onto the bound box
`[0, ∞)`, and neither the final truncation nor assembling rows can
introduce negative values. -/
theorem c8_lsc_nonneg (elementDict : Element → ℕ) (atomTracer : Element)
    (purityTracer : List ℚ) (dataFrame : List (List ℚ)) (alpha : ℚ) (iters : ℕ)
    (out : List (List ℚ))
    (hdata : ∀ r ∈ dataFrame, ∀ v ∈ r, 0 ≤ v)
    (hres : correctForNaturalAbundance elementDict atomTracer purityTracer dataFrame
        Method.LSC alpha iters = some out) :
    ∀ row ∈ out, ∀ v ∈ row, 0 ≤ v := by
  simp only [correctForNaturalAbundance] at hres
  by_cases hguard : elementDict atomTracer + 1 < (dataFrame.headD []).length
  · rw [if_pos hguard] at hres
    cases hres
  · rw [if_neg hguard] at hres
    cases dataFrame with
    | nil => simp at hres
    | cons r rest =>
        simp only [List.map_cons] at hres
        rcases Option.map_eq_some'.mp hres with ⟨xs, hxs, hout⟩
        intro row hrow v hv
        rw [← hout] at hrow
        rcases List.mem_map.mp hrow with ⟨x, hx, rfl⟩
        rcases mapMOpt_mem _ _ _ hxs x hx with ⟨target, htmem, hsolve⟩
        have hx0 : ∀ u ∈ ((r ++ List.replicate (elementDict atomTracer + 1 - r.length)
            (0 : ℚ)).map fun _ => (0 : ℚ)), 0 ≤ u := by
          intro u hu
          rcases List.mem_map.mp hu with ⟨_, _, rfl⟩
          exact le_refl 0
        exact lbfgsbModel_nonneg _ _ _ _ _ _ hsolve hx0 v (List.take_subset _ _ hv)

/-- Witness for `c8_lsc_nonneg` at the concrete evaluation
`lsc_concrete_eval`. -/
theorem c8_lsc_nonneg_witness :
    (∀ r ∈ narrowDataFrame, ∀ v ∈ r, (0 : ℚ) ≤ v) ∧
    (∀ row ∈ [[(1.99977 : ℚ)]], ∀ v ∈ row, 0 ≤ v) :=
  ⟨by decide,
    c8_lsc_nonneg tracerOnlyDict Element.H [0, 1] narrowDataFrame 1 1 [[1.99977]]
      (by decide) lsc_concrete_eval⟩

/-- `Chain'` unpacked to successive `getElem` pairs. -/
theorem chain'_iff_getElem' {α : Type} (R : α → α → Prop) (l : List α) :
    List.Chain' R l ↔ ∀ (i : ℕ) (h : i + 1 < l.length), R l[i] l[i+1] := by
  rw [List.chain'_iff_get]
  constructor
  · intro hh i h
    have := hh i (by omega)
    simpa [List.get_eq_getElem] using this
  · intro hh i h
    have := hh i (by omega)
    simpa [List.get_eq_getElem] using this

/-- `getD` on an enumerated-ion list agrees with `getElem` in bounds. -/
theorem getD_pair_eq_getElem (g : List (ℕ × Ion)) (k : ℕ) (h : k < g.length) :
    g.getD k default = g[k] := by
  rw [List.getD_eq_getElem?_getD, List.getElem?_eq_getElem h]
  rfl

/-- Gluing the slice `[s, e)` to the tail from `e` recovers the tail from
`s`. -/
theorem take_drop_glue {α : Type} (g : List α) (s e : ℕ) (hse : s ≤ e) :
    (g.take e).drop s ++ g.drop e = g.drop s := by
  induction g generalizing s e with
  | nil => simp
  | cons a t ih =>
      cases e with
      | zero =>
          have hs : s = 0 := Nat.le_zero.mp hse
          subst hs
          simp
      | succ e =>
          cases s with
          | zero =>
              simp only [List.drop_zero, List.take_succ_cons, List.drop_succ_cons,
                List.cons_append, List.take_append_drop]
          | succ s =>
              simpa using ih s e (Nat.succ_le_succ_iff.mp hse)

/-- Characterization of the split positions: in range and non-unit mass
step. -/
theorem massDiffPositions_mem (g : List (ℕ × Ion)) (k : ℕ) :
    k ∈ massDiffPositions g ↔ k < g.length - 1 ∧ ¬ unitStepD g k := by
  simp [massDiffPositions, List.mem_filter, List.mem_range]

/-- The groups of `groupByDescription` concatenate back to the input. -/
theorem groupByDescription_flatten (l : List (ℕ × Ion)) :
    ((groupByDescription l).map Prod.snd).flatten = l := by
  induction l with
  | nil => rfl
  | cons x xs ih =>
      simp only [groupByDescription]
      cases hg : groupByDescription xs with
      | nil =>
          rw [hg] at ih
          simp at ih
          simp [consGroup, ← ih]
      | cons kg rest =>
          obtain ⟨k, g⟩ := kg
          rw [hg] at ih
          simp only [List.map_cons, List.flatten_cons] at ih
          by_cases hk : x.2.description = k
          · simp only [consGroup, if_pos hk, List.map_cons, List.flatten_cons,
              List.cons_append]
            rw [ih]
          · simp only [consGroup, if_neg hk, List.map_cons, List.flatten_cons,
              List.singleton_append, List.cons_append]
            simp [ih]

/-- Every ion of a `groupByDescription` group carries the group's key. -/
theorem groupByDescription_keys (l : List (ℕ × Ion)) (kg : String × List (ℕ × Ion))
    (hkg : kg ∈ groupByDescription l) (x : ℕ × Ion) (hx : x ∈ kg.2) :
    x.2.description = kg.1 := by
  induction l generalizing kg with
  | nil => cases hkg
  | cons a xs ih =>
      simp only [groupByDescription] at hkg
      cases hg : groupByDescription xs with
      | nil =>
          rw [hg] at hkg
          simp only [consGroup, List.mem_singleton] at hkg
          subst hkg
          simp only [List.mem_singleton] at hx
          subst hx
          rfl
      | cons kg0 rest =>
          obtain ⟨k, g⟩ := kg0
          rw [hg] at hkg
          by_cases hk : a.2.description = k
          · rw [consGroup, if_pos hk] at hkg
            rcases List.mem_cons.mp hkg with rfl | hmem
            · rcases List.mem_cons.mp hx with rfl | hxg
              · exact hk
              · exact ih (k, g) (by rw [hg]; exact List.mem_cons_self _ _) hxg
            · exact ih kg (by rw [hg]; exact List.mem_cons_of_mem _ hmem) hx
          · rw [consGroup, if_neg hk] at hkg
            rcases List.mem_cons.mp hkg with rfl | hmem
            · simp only [List.mem_singleton] at hx
              subst hx
              rfl
            · exact ih kg (by rw [hg]; exact hmem) hx

/-- Adjacent groups of `groupByDescription` have different keys (the runs
are maximal). -/
theorem groupByDescription_chain (l : List (ℕ × Ion)) :
    List.Chain' (fun A B => A.1 ≠ B.1) (groupByDescription l) := by
  induction l with
  | nil => simp [groupByDescription]
  | cons a xs ih =>
      simp only [groupByDescription]
      cases hg : groupByDescription xs with
      | nil => simp [consGroup]
      | cons kg0 rest =>
          obtain ⟨k, g⟩ := kg0
          rw [hg] at ih
          by_cases hk : a.2.description = k
          · rw [consGroup, if_pos hk]
            rcases List.chain'_cons'.mp ih with ⟨hlink, hrest⟩
            exact List.chain'_cons'.mpr ⟨fun B hB => hlink B hB, hrest⟩
          · rw [consGroup, if_neg hk]
            exact List.chain'_cons.mpr ⟨hk, ih⟩

/-- Entry `j` of the slice `[s, e)` is entry `s + j` of the list. -/
theorem slice_getElem (g : List (ℕ × Ion)) (s e j : ℕ)
    (hj : j < ((g.take e).drop s).length) (hsj : s + j < g.length) :
    ((g.take e).drop s)[j] = g[s + j] := by
  rw [List.getElem_drop, List.getElem_take]

set_option maxHeartbeats 2000000 in
/-- Correctness of the slicing loop: under the invariants carried by the
split positions (sorted, in range, containing every non-unit step position
from `start` on, and containing only non-unit positions), the produced
sub-clusters concatenate to `group[start:]`, are internally unit-stepped,
and are separated by non-unit mass jumps; the head of the first sub-cluster
is `group[start]`. -/
theorem buildSubgroups_spec (key : String) (g : List (ℕ × Ion)) :
    ∀ (idxs : List ℕ) (start i : ℕ),
      idxs.Pairwise (· < ·) →
      (∀ p ∈ idxs, start ≤ p ∧ p + 1 < g.length) →
      (∀ k, start ≤ k → k + 1 < g.length → k ∈ idxs ∨ unitStepD g k) →
      (∀ p ∈ idxs, ¬ unitStepD g p) →
      start < g.length →
      ((buildSubgroups key g idxs start i).map Prod.snd).flatten = g.drop start ∧
      (∀ sub ∈ (buildSubgroups key g idxs start i).map Prod.snd,
        List.Chain' clusterStep sub) ∧
      List.Chain' boundaryBreak (buildSubgroups key g idxs start i) ∧
      ((buildSubgroups key g idxs start i).head?.bind fun A => A.2.head?) = g[start]? := by
  intro idxs
  induction idxs with
  | nil =>
      intro start i _ _ hall _ hstart
      refine ⟨by simp [buildSubgroups], ?_, ?_, ?_⟩
      · intro sub hsub
        simp only [buildSubgroups, List.map_cons, List.map_nil, List.mem_singleton] at hsub
        subst hsub
        rw [chain'_iff_getElem']
        intro j hj
        have hlen : (g.drop start).length = g.length - start := by simp
        have hjg : start + j + 1 < g.length := by omega
        rcases hall (start + j) (by omega) hjg with hmem | hunit
        · cases hmem
        · unfold unitStepD at hunit
          have e1 := getD_pair_eq_getElem g (start + j + 1) (by omega)
          have e2 := getD_pair_eq_getElem g (start + j) (by omega)
          rw [e1, e2] at hunit
          unfold clusterStep
          rw [List.getElem_drop, List.getElem_drop]
          exact hunit
      · exact List.chain'_singleton _
      · simp [buildSubgroups, List.head?_drop]
  | cons p rest ih =>
      intro start i hpair hbound hall hnonunit hstart
      obtain ⟨hsp, hplen⟩ := hbound p (List.mem_cons_self _ _)
      have hrel : ∀ q ∈ rest, p < q := (List.pairwise_cons.mp hpair).1
      obtain ⟨ihjoin, ihchain, ihbchain, ihhead⟩ := ih (p + 1) (i + 1)
        (List.Pairwise.of_cons hpair)
        (fun q hq => ⟨by have := hrel q hq; omega, (hbound q (List.mem_cons_of_mem _ hq)).2⟩)
        (fun k hk1 hk2 => by
          rcases hall k (by omega) hk2 with hmem | hunit
          · rcases List.mem_cons.mp hmem with rfl | hmem2
            · omega
            · exact Or.inl hmem2
          · exact Or.inr hunit)
        (fun q hq => hnonunit q (List.mem_cons_of_mem _ hq))
        (by omega)
      have hsublen : ((g.take (p + 1)).drop start).length = p + 1 - start := by
        simp only [List.length_drop, List.length_take]
        omega
      refine ⟨?_, ?_, ?_, ?_⟩
      · simp only [buildSubgroups, List.map_cons, List.flatten_cons]
        rw [ihjoin]
        exact take_drop_glue g start (p + 1) (by omega)
      · intro sub hsub
        simp only [buildSubgroups, List.map_cons] at hsub
        rcases List.mem_cons.mp hsub with rfl | hmem
        · rw [chain'_iff_getElem']
          intro j hj
          rw [hsublen] at hj
          have hk2 : start + j + 1 < g.length := by omega
          rcases hall (start + j) (by omega) hk2 with hmem2 | hunit
          · rcases List.mem_cons.mp hmem2 with heq | hmem3
            · omega
            · have := hrel _ hmem3
              omega
          · unfold unitStepD at hunit
            have e1 := getD_pair_eq_getElem g (start + j + 1) (by omega)
            have e2 := getD_pair_eq_getElem g (start + j) (by omega)
            rw [e1, e2] at hunit
            unfold clusterStep
            rw [slice_getElem g start (p + 1) j (by rw [hsublen]; omega) (by omega),
              slice_getElem g start (p + 1) (j + 1) (by rw [hsublen]; omega) (by omega)]
            exact hunit
        · exact ihchain sub hmem
      · simp only [buildSubgroups]
        apply List.chain'_cons'.mpr
        refine ⟨?_, ihbchain⟩
        intro B hB
        intro a ha b hb
        have hBhead : B.2.head? = g[p + 1]? := by
          rw [Option.mem_def] at hB
          rw [hB] at ihhead
          simpa using ihhead
        have hlast : ((g.take (p + 1)).drop start).getLast? = g[p]? := by
          rw [List.getLast?_eq_getElem?, hsublen]
          rw [List.getElem?_drop]
          rw [show start + (p + 1 - start - 1) = p from by omega]
          rw [List.getElem?_take, if_pos (by omega)]
        rw [hlast] at ha
        rw [hBhead] at hb
        rw [List.getElem?_eq_getElem (by omega)] at ha
        rw [List.getElem?_eq_getElem (by omega)] at hb
        rw [Option.mem_some_iff] at ha hb
        have hnp := hnonunit p (List.mem_cons_self _ _)
        unfold unitStepD at hnp
        have e1 := getD_pair_eq_getElem g (p + 1) (by omega)
        have e2 := getD_pair_eq_getElem g p (by omega)
        rw [e1, e2] at hnp
        rw [ha, hb] at hnp
        exact hnp
      · simp only [buildSubgroups, List.head?_cons, Option.some_bind]
        rw [List.head?_eq_getElem?, List.getElem?_drop,
          List.getElem?_take, if_pos (by omega), Nat.add_zero]
/-- Per-group splitting is correct: the sub-clusters concatenate to the
group, each is internally unit-stepped, and adjacent sub-clusters are
separated by a non-unit mass jump. -/
theorem splitGroup_spec (key : String) (g : List (ℕ × Ion)) :
    ((splitGroup key g).map Prod.snd).flatten = g ∧
    (∀ sub ∈ (splitGroup key g).map Prod.snd, List.Chain' clusterStep sub) ∧
    List.Chain' boundaryBreak (splitGroup key g) := by
  unfold splitGroup
  by_cases h1 : g.length = 1
  · rw [if_pos h1]
    refine ⟨by simp, ?_, List.chain'_singleton _⟩
    intro sub hsub
    simp only [List.map_cons, List.map_nil, List.mem_singleton] at hsub
    rw [hsub]
    rcases g with _ | ⟨a, t⟩
    · simp at h1
    · rcases t with _ | ⟨b, t2⟩
      · exact List.chain'_singleton _
      · simp at h1
  · rw [if_neg h1]
    by_cases h2 : 0 < (massDiffPositions g).length
    · rw [if_pos h2]
      rcases List.exists_mem_of_length_pos h2 with ⟨p0, hp0⟩
      have hp0m := ((massDiffPositions_mem g p0).mp hp0).1
      have hglen : 2 ≤ g.length := by omega
      have hspec := buildSubgroups_spec key g (massDiffPositions g) 0 0
        ((List.pairwise_lt_range _).filter _)
        (fun p hp => by
          have h3 := ((massDiffPositions_mem g p).mp hp).1
          omega)
        (fun k hk1 hk2 => by
          by_cases hu : unitStepD g k
          · exact Or.inr hu
          · exact Or.inl ((massDiffPositions_mem g k).mpr ⟨by omega, hu⟩))
        (fun p hp => ((massDiffPositions_mem g p).mp hp).2)
        (by omega)
      exact ⟨by simpa using hspec.1, hspec.2.1, hspec.2.2.1⟩
    · rw [if_neg h2]
      refine ⟨by simp, ?_, List.chain'_singleton _⟩
      intro sub hsub
      simp only [List.map_cons, List.map_nil, List.mem_singleton] at hsub
      rw [hsub]
      rw [chain'_iff_getElem']
      intro j hj
      have hu : unitStepD g j := by
        by_contra hcon
        exact h2 (List.length_pos_of_mem ((massDiffPositions_mem g j).mpr ⟨by omega, hcon⟩))
      unfold unitStepD at hu
      have e1 := getD_pair_eq_getElem g (j + 1) (by omega)
      have e2 := getD_pair_eq_getElem g j (by omega)
      rw [e1, e2] at hu
      exact hu

/-- Splitting every group and flattening recovers the concatenation of the
groups. -/
theorem split_flatten (gs : List (String × List (ℕ × Ion))) :
    (((gs.map fun g => splitGroup g.1 g.2).flatten).map Prod.snd).flatten =
      (gs.map Prod.snd).flatten := by
  induction gs with
  | nil => rfl
  | cons kg rest ih =>
      simp only [List.map_cons, List.flatten_cons, List.map_append, List.flatten_append]
      rw [ih, (splitGroup_spec kg.1 kg.2).1]

/-- Sorting every group permutes the flattened contents. -/
theorem sorted_flatten_perm (gs : List (String × List (ℕ × Ion))) :
    ((gs.map fun g => ((g.1, sortGroupByMass g.2) : String × List (ℕ × Ion))).map
      Prod.snd).flatten.Perm ((gs.map Prod.snd).flatten) := by
  induction gs with
  | nil => exact List.Perm.refl _
  | cons kg rest ih =>
      simp only [List.map_cons, List.flatten_cons]
      exact List.Perm.append (List.perm_insertionSort _ _) ih

/-- The flattened final groups are a permutation of the enumerated input
ions. -/
theorem getIonParentedGroups_perm (ionsDetected : List Ion) :
    ((getIonParentedGroups ionsDetected).map Prod.snd).flatten.Perm ionsDetected.enum := by
  unfold getIonParentedGroups groupsIntraSorted
  rw [split_flatten]
  have h1 := sorted_flatten_perm (groupByDescription ionsDetected.enum)
  rw [groupByDescription_flatten] at h1
  exact h1

/-- Claim C10: ion grouping and splitting partitions its input: the final
groups' members are a permutation of the enumerated input (so each input
ion, with its original column index, appears in exactly one final group:
the flattened members are duplicate-free), and the group sizes sum to the
input length. -/
theorem c10_grouping_partition (ionsDetected : List Ion) :
    ((getIonParentedGroups ionsDetected).map Prod.snd).flatten.Perm ionsDetected.enum ∧
    ((getIonParentedGroups ionsDetected).map Prod.snd).flatten.Nodup ∧
    ((getIonParentedGroups ionsDetected).map fun kg => kg.2.length).sum =
      ionsDetected.length := by
  have hperm := getIonParentedGroups_perm ionsDetected
  have hnodup : ionsDetected.enum.Nodup := by
    have h2 : (ionsDetected.enum.map Prod.fst).Nodup := by
      rw [List.enum_map_fst]
      exact List.nodup_range _
    exact h2.of_map Prod.fst
  refine ⟨hperm, hperm.nodup_iff.mpr hnodup, ?_⟩
  have hlen := hperm.length_eq
  rw [List.length_flatten, List.map_map] at hlen
  simpa [List.enum_length, Function.comp] using hlen

/-- Claim C4 (corrected): cluster resolution groups exactly the maximal
runs of consecutive equal-description columns: every column of a group
carries the group's description, adjacent groups have different
descriptions, the groups partition the enumerated input, and each group is
sorted by ascending mass.  Non-adjacent columns with equal descriptions are
not merged (see the counterexample). -/
theorem c4_grouping_consecutive_runs (ionsDetected : List Ion) :
    (∀ kg ∈ groupsIntraSorted ionsDetected, ∀ x ∈ kg.2, x.2.description = kg.1) ∧
    List.Chain' (fun A B => A.1 ≠ B.1) (groupsIntraSorted ionsDetected) ∧
    ((groupsIntraSorted ionsDetected).map Prod.snd).flatten.Perm ionsDetected.enum ∧
    (∀ kg ∈ groupsIntraSorted ionsDetected,
      List.Sorted (fun a b : ℕ × Ion => a.2.mass ≤ b.2.mass) kg.2) := by
  refine ⟨?_, ?_, ?_, ?_⟩
  · intro kg hkg x hx
    unfold groupsIntraSorted at hkg
    rcases List.mem_map.mp hkg with ⟨kg0, hkg0, rfl⟩
    have hx0 : x ∈ kg0.2 := ((List.perm_insertionSort _ _).mem_iff).mp hx
    exact groupByDescription_keys _ kg0 hkg0 x hx0
  · unfold groupsIntraSorted
    rw [List.chain'_map]
    exact groupByDescription_chain _
  · unfold groupsIntraSorted
    have h1 := sorted_flatten_perm (groupByDescription ionsDetected.enum)
    rw [groupByDescription_flatten] at h1
    exact h1
  · intro kg hkg
    unfold groupsIntraSorted at hkg
    rcases List.mem_map.mp hkg with ⟨kg0, hkg0, rfl⟩
    exact List.sorted_insertionSort _ _

/-- Claim C4 counterexample: with descriptions A, B, A the two
equal-description columns are in different final groups, refuting the
claim that equal-description columns are grouped regardless of
adjacency. -/
theorem c4_nonadjacent_descriptions_counterexample :
    ¬ ∃ kg ∈ getIonParentedGroups nonAdjacentIons,
      (0, (⟨1, 100, "A"⟩ : Ion)) ∈ kg.2 ∧ (2, (⟨3, 101, "A"⟩ : Ion)) ∈ kg.2 := by
  decide

/-- Witness for `c4_grouping_consecutive_runs` at a concrete input. -/
theorem c4_grouping_runs_witness :
    ((groupsIntraSorted nonAdjacentIons).map Prod.snd).flatten.Perm nonAdjacentIons.enum :=
  (c4_grouping_consecutive_runs nonAdjacentIons).2.2.1

/-- Claim C5: a description group sorted by ascending mass is split into a
new sub-cluster at every boundary whose consecutive mass difference is not
1 (sub-clusters concatenate to the group, are internally unit-stepped and
are separated by non-unit jumps), and each cluster is labeled `M.0` upward;
in particular masses 100,101,102,105,106 under one shared description
produce the two clusters `A-0` of size 3 labeled M.0-M.2 and `A-1` of size
2 labeled M.0-M.1. -/
theorem c5_split_on_nonunit_mass_jumps :
    (∀ (key : String) (g : List (ℕ × Ion)),
      ((splitGroup key g).map Prod.snd).flatten = g ∧
      (∀ sub ∈ (splitGroup key g).map Prod.snd, List.Chain' clusterStep sub) ∧
      List.Chain' boundaryBreak (splitGroup key g)) ∧
    (getIonParentedGroups contiguityExampleIons).map
        (fun kg => (kg.1, kg.2.map fun q => q.2.mass, mLabels kg.2)) =
      [("A-0", [100, 101, 102], ["M.0", "M.1", "M.2"]),
        ("A-1", [105, 106], ["M.0", "M.1"])] :=
  ⟨splitGroup_spec, by decide⟩

/-- Witness for `c5_split_on_nonunit_mass_jumps` at a concrete group. -/
theorem c5_split_witness :
    ((splitGroup "A" contiguityExampleIons.enum).map Prod.snd).flatten =
      contiguityExampleIons.enum :=
  (c5_split_on_nonunit_mass_jumps.1 "A" contiguityExampleIons.enum).1

/-- Claim C10: ion grouping and splitting partitions its input: the final
groups' members are a permutation of the enumerated input (so each input
ion, with its original column index, appears in exactly one final group:
the flattened members are duplicate-free), and the group sizes sum to the
input length. -/
theorem c10_grouping_partition_witness :
    ((getIonParentedGroups nonAdjacentIons).map Prod.snd).flatten.Perm
      nonAdjacentIons.enum :=
  (c10_grouping_partition nonAdjacentIons).1

/-- Claim C9: the claim says fewer than 3 usable calibration points skip
the standard fit, but the code's test `(len(xvalsToFit)<3)|len(yvalsToFit)<3`
parses as `((len(xvalsToFit)<3) | len(yvalsToFit)) < 3`, so a column with
exactly 2 valid points has condition `(1 ||| 2) < 3 = False` and is NOT
skipped: a two-point fit (slope 2, intercept 0, R² = 1) is produced and
quantification uses it.  A column with 1 valid point is skipped
(`(1 ||| 1) < 3`) and its quantification lookup reports a missing value,
as the claim expects. -/
theorem c9_two_point_fit_not_skipped :
    computeStandardFits [twoPointColumn, onePointColumn] =
      some [("C16:0 (270)", (2, 0, 1))] ∧
    computeQuantificationFromStandardFits [twoPointColumn, onePointColumn]
        exampleSignals = some [("C16:0 (270)", [3])] ∧
    quantFor [("C16:0 (270)", [3])] "C16:0 (270)" = some [3] ∧
    quantFor [("C16:0 (270)", [3])] "C18:0 (298)" = none := by
  refine ⟨?_, ?_, ?_, ?_⟩
  · norm_num [computeStandardFits, fitColumn, mapMOpt, maskOf, mask1Entry,
      mask2Entry, isNaNQ, applyMask, linregressQ, sumQ, meanQ,
      twoPointColumn, onePointColumn,
      (by decide : ((1 : ℕ) ||| 2) = 3), (by decide : ((1 : ℕ) ||| 1) = 1),
      List.filterMap_cons, List.filterMap_nil, id]
  · norm_num [computeQuantificationFromStandardFits, computeStandardFits,
      fitColumn, mapMOpt, maskOf, mask1Entry, mask2Entry, isNaNQ, applyMask,
      linregressQ, sumQ, meanQ, twoPointColumn, onePointColumn,
      exampleSignals,
      (by decide : ((1 : ℕ) ||| 2) = 3), (by decide : ((1 : ℕ) ||| 1) = 1),
      List.filterMap_cons, List.filterMap_nil, id]
  · rfl
  · rfl

end MsAnalyzer
